import Mathlib

/-!
A shallow embedding of the WhereAreYouFromAPI Django application
(`name_origin/models.py`, `name_origin/views.py`, `name_origin/serializers.py`)
together with proofs about the name-resolution-and-enrichment pipeline and the
popular-names aggregate query.

Modelling conventions:
* The relational store is a `DB` record of lists of rows; rows are identified by
  their unique keys (`Name.value`, `Country.code`) instead of surrogate ids,
  which coincides with the ORM behaviour in the sequential execution model.
* Wall-clock time is an integer number of seconds; `timedelta(days=1)` is
  `oneDay = 86400`.
* Python floats are modelled as rationals `ℚ`.
* The two external HTTP services are an explicit environment: the
  nationalize.io response is a list of predictions, the restcountries.com
  response is a function from a country code to an HTTP-level response.
* A raised Python exception is modelled with `Except`/`Option`: `.error db`
  carries the store state at the moment the exception escapes (Django applies
  no transaction around the view, so earlier writes persist).
-/

/-- `Name` rows (models.py).  `last_accessed` has `auto_now=True`: it is set to
the current time whenever the row is saved with that field included. -/
structure NameRec where
  value : String
  count_of_requests : Int
  last_accessed : Int
deriving Repr, DecidableEq

/-- `Country` rows (models.py).  Fields that are nullable (`null=True`) or
populated from possibly-missing JSON keys are `Option`s; `none` covers both SQL
`NULL` and the blank-string default of a `CharField`. -/
structure CountryRec where
  code : String
  alpha3 : Option String
  name : Option String
  official_name : Option String
  region : Option String
  independent : Option Bool
  capital : Option String
  capital_lat : Option ℚ
  capital_lng : Option ℚ
  google_maps_url : Option String
  openstreetmap_url : Option String
  flag_png : Option String
  flag_svg : Option String
  flag_alt : Option String
  coat_of_arms_png : Option String
  coat_of_arms_svg : Option String
deriving Repr, DecidableEq

/-- `NameCountryStat` rows (models.py), keyed by the two foreign keys. -/
structure StatRec where
  name_value : String
  country_code : String
  probability : ℚ
deriving Repr, DecidableEq

/-- `CountryBorder` rows (models.py), keyed by the codes of the two related
countries. -/
structure BorderRec where
  from_code : String
  to_code : String
deriving Repr, DecidableEq

/-- The relational store. -/
structure DB where
  names : List NameRec
  countries : List CountryRec
  stats : List StatRec
  borders : List BorderRec
deriving Repr, DecidableEq

def dbEmpty : DB := ⟨[], [], [], []⟩

/-- Python string comparison `a < b` is lexicographic on code points, which is
exactly `List.lt` on the underlying character list. -/
def pyStrLt (a b : String) : Bool := decide (a.data < b.data)

/-- Python `str.upper()` (the country codes in play are ASCII). -/
def pyUpper (s : String) : String := ⟨s.data.map Char.toUpper⟩

/-- Python `round(x, 4)`: round half to even at the fourth decimal place. -/
def roundHalfEven (s : ℚ) : ℤ :=
  if Int.fract s = 1/2 then 2 * round (s / 2) else round s

def pyRound4 (q : ℚ) : ℚ := (roundHalfEven (q * 10000) : ℚ) / 10000

/-- One element of the `country` list in a nationalize.io response. -/
structure Prediction where
  country_id : String
  probability : ℚ
deriving Repr, DecidableEq

/-- The JSON object for one country in a restcountries.com response, flattened
to the paths `fetch_country_data` reads. -/
structure RestJson where
  name_common : Option String
  name_official : Option String
  cca3 : Option String
  region : Option String
  independent : Option Bool
  capital : List String
  capitalInfo_latlng : Option (ℚ × ℚ)
  maps_googleMaps : Option String
  maps_openStreetMaps : Option String
  flags_png : Option String
  flags_svg : Option String
  flags_alt : Option String
  coatOfArms_png : Option String
  coatOfArms_svg : Option String
  borders : List String

/-- An HTTP response from restcountries.com: `ok` is `r.ok`, `body` is the
parsed JSON list (`none` when the body is not a JSON array, so that `r.json()`
raises). -/
structure RestResponse where
  ok : Bool
  body : Option (List RestJson)

/-- The dictionary built by `NameStatsView.fetch_country_data` (views.py),
including the `borders` entry that the caller pops off before using the rest
as creation defaults. -/
structure CountryData where
  name : Option String
  official_name : Option String
  alpha3 : Option String
  region : Option String
  independent : Option Bool
  capital : Option String
  capital_lat : Option ℚ
  capital_lng : Option ℚ
  google_maps_url : Option String
  openstreetmap_url : Option String
  flag_png : Option String
  flag_svg : Option String
  flag_alt : Option String
  coat_of_arms_png : Option String
  coat_of_arms_svg : Option String
  borders : List String
deriving Repr, DecidableEq

/-- The empty dictionary `{}` returned when the metadata call is not ok:
every key is absent, so each `get` resolves to `None` and
`pop("borders", [])` resolves to `[]`. -/
def emptyCountryData : CountryData :=
  ⟨none, none, none, none, none, none, none, none, none, none, none, none,
    none, none, none, []⟩

/-- The field extraction in `fetch_country_data` applied to the first element
of the response body.  `capital` takes the head of the capital list
(`(data.get("capital") or [None])[0]`), the capital coordinates come from the
`capitalInfo.latlng` pair when present, and every missing nesting resolves to
`None`. -/
def extractCountryData (data : RestJson) : CountryData :=
  { name := data.name_common
    official_name := data.name_official
    alpha3 := data.cca3
    region := data.region
    independent := data.independent
    capital := data.capital.head?
    capital_lat := data.capitalInfo_latlng.map Prod.fst
    capital_lng := data.capitalInfo_latlng.map Prod.snd
    google_maps_url := data.maps_googleMaps
    openstreetmap_url := data.maps_openStreetMaps
    flag_png := data.flags_png
    flag_svg := data.flags_svg
    flag_alt := data.flags_alt
    coat_of_arms_png := data.coatOfArms_png
    coat_of_arms_svg := data.coatOfArms_svg
    borders := data.borders }

/-- `NameStatsView.fetch_country_data` (views.py lines 125-155).
`none` models a raised exception: when `r.ok` holds but the body is not a
non-empty JSON array, `r.json()[0]` raises before any dictionary is built.
When the call is not ok the function returns `{}`. -/
def fetch_country_data (r : RestResponse) : Option CountryData :=
  if !r.ok then
    some emptyCountryData
  else
    match r.body with
    | none => none
    | some [] => none
    | some (d :: _) => some (extractCountryData d)

/-- `Country.objects.get_or_create(code=country_code, defaults=country_data)`:
the defaults dictionary (with `borders` already popped) used for a freshly
created row. -/
def countryFromDefaults (code : String) (d : CountryData) : CountryRec :=
  { code := code
    alpha3 := d.alpha3
    name := d.name
    official_name := d.official_name
    region := d.region
    independent := d.independent
    capital := d.capital
    capital_lat := d.capital_lat
    capital_lng := d.capital_lng
    google_maps_url := d.google_maps_url
    openstreetmap_url := d.openstreetmap_url
    flag_png := d.flag_png
    flag_svg := d.flag_svg
    flag_alt := d.flag_alt
    coat_of_arms_png := d.coat_of_arms_png
    coat_of_arms_svg := d.coat_of_arms_svg }

def get_or_create_country (db : DB) (code : String) (d : CountryData) :
    CountryRec × DB :=
  match db.countries.find? (fun c => c.code = code) with
  | some c => (c, db)
  | none =>
      let c := countryFromDefaults code d
      (c, { db with countries := db.countries ++ [c] })

/-- `NameCountryStat.objects.update_or_create(name=..., country=...,
defaults={"probability": p})`: overwrite the probability of the row with this
(name, country) key, or insert a fresh row. -/
def update_or_create_stat (db : DB) (nv code : String) (p : ℚ) : DB :=
  if db.stats.any (fun s => s.name_value = nv && s.country_code = code) then
    { db with stats := db.stats.map (fun s =>
        if s.name_value = nv && s.country_code = code then
          { s with probability := p }
        else s) }
  else
    { db with stats := db.stats ++ [⟨nv, code, p⟩] }

/-- `CountryBorder.save` (models.py lines 53-57): swap the two endpoints when
`from_country.code > to_country.code`, then insert the row. -/
def CountryBorder_save (fc tc : String) (borders : List BorderRec) :
    List BorderRec :=
  if pyStrLt tc fc then borders ++ [⟨tc, fc⟩] else borders ++ [⟨fc, tc⟩]

/-- `sorted([country, neighbor], key=lambda c: c.code)` — Python's sort is
stable, so the neighbour comes first exactly when its code is strictly
smaller. -/
def sortedPair (country neighbor : CountryRec) : String × String :=
  if pyStrLt neighbor.code country.code then (neighbor.code, country.code)
  else (country.code, neighbor.code)

def borderExists (borders : List BorderRec) (f t : String) : Bool :=
  borders.any (fun b => b.from_code = f && b.to_code = t)

/-- The `for border_code in borders` loop of `NameStatsView.get` (views.py
lines 99-118): resolve each neighbour by its alpha-3 code, skip it when no
such country exists, canonicalize the pair, and create the row only when it is
not already present. -/
def linkBorders (country : CountryRec) : List String → DB → DB
  | [], db => db
  | bcode :: rest, db =>
      match db.countries.find? (fun c => c.alpha3 = some bcode) with
      | none => linkBorders country rest db
      | some neighbor =>
          let p := sortedPair country neighbor
          if borderExists db.borders p.1 p.2 then linkBorders country rest db
          else
            linkBorders country rest
              { db with borders := CountryBorder_save p.1 p.2 db.borders }

/-- The body of the `for country_info in data["country"]` loop (views.py lines
76-118) for a single prediction.  `.error db` models the exception escaping
from `fetch_country_data` (the store is untouched at that point). -/
def processOne (rest : String → RestResponse) (nv : String) (db : DB)
    (pinfo : Prediction) : Except DB DB :=
  match fetch_country_data (rest pinfo.country_id) with
  | none => .error db
  | some cd =>
      let gc := get_or_create_country db pinfo.country_id cd
      let db2 := update_or_create_stat gc.2 nv gc.1.code pinfo.probability
      .ok (linkBorders gc.1 cd.borders db2)

def processAll (rest : String → RestResponse) (nv : String) :
    List Prediction → DB → Except DB DB
  | [], db => .ok db
  | p :: ps, db =>
      match processOne rest nv db p with
      | .error d => .error d
      | .ok db' => processAll rest nv ps db'

/-- The external world seen by one `GET /names/` request: the parsed
`country` list of the nationalize.io response for the queried name, and the
restcountries.com response for each country code. -/
structure Env where
  predictions : List Prediction
  rest : String → RestResponse

/-- The compact serializer output (serializers.py lines 42-52): the country
code, the country's common name, and the probability rounded to four decimal
places. -/
structure CompactStat where
  code : String
  name : Option String
  probability : ℚ
deriving Repr, DecidableEq

def compactSerialize (db : DB) (s : StatRec) : CompactStat :=
  let c := (db.countries.find? (fun c => c.code = s.country_code)).getD
    (countryFromDefaults s.country_code emptyCountryData)
  ⟨c.code, c.name, pyRound4 s.probability⟩

inductive NamesResult where
  | success (name : String) (countries : List CompactStat)
  | badRequest (msg : String)
  | notFound (msg : String)
deriving Repr, DecidableEq

/-- `name_obj.count_of_requests += 1` followed by
`name_obj.save(update_fields=["count_of_requests", "last_accessed"])`:
the counter grows by one and `auto_now` refreshes the timestamp. -/
def touchName (v : String) (now : Int) (names : List NameRec) : List NameRec :=
  names.map (fun n =>
    if n.value = v then
      { n with count_of_requests := n.count_of_requests + 1,
               last_accessed := now }
    else n)

def oneDay : Int := 86400

/-- The cache-miss tail of `NameStatsView.get` (views.py lines 59-123): call
nationalize.io, return 404 on an empty candidate list, otherwise get-or-create
the `Name` row, bump its counter, process every prediction, and serialize all
persisted stats for the name. -/
def fetchAndStore (db : DB) (name_value : String) (now : Int) (env : Env) :
    Except DB (NamesResult × DB) :=
  if env.predictions.isEmpty then
    .ok (.notFound ("No countries found for name " ++ name_value ++ "."), db)
  else
    let db1 :=
      match db.names.find? (fun n => n.value = name_value) with
      | some _ => db
      | none =>
          { db with names := db.names ++ [(⟨name_value, 0, now⟩ : NameRec)] }
    let db2 := { db1 with names := touchName name_value now db1.names }
    match processAll env.rest name_value env.predictions db2 with
    | .error d => .error d
    | .ok db3 =>
        .ok (.success name_value
          ((db3.stats.filter (fun s => s.name_value = name_value)).map
            (compactSerialize db3)), db3)

/-- `NameStatsView.get` (views.py lines 38-123).  A missing or empty `name`
query parameter is falsy and yields 400; a `Name` row whose `last_accessed`
is within 24 hours of now is served from the store without consulting the
environment. -/
def NameStatsView_get (db : DB) (name_param : Option String) (now : Int)
    (env : Env) : Except DB (NamesResult × DB) :=
  match name_param with
  | none => .ok (.badRequest "Query parameter name is required.", db)
  | some name_value =>
      if name_value = "" then
        .ok (.badRequest "Query parameter name is required.", db)
      else
        match db.names.find? (fun n => n.value = name_value) with
        | some name_obj =>
            if name_obj.last_accessed ≥ now - oneDay then
              .ok (.success name_obj.value
                ((db.stats.filter (fun s => s.name_value = name_value)).map
                  (compactSerialize db)),
                { db with names := touchName name_value now db.names })
            else fetchAndStore db name_value now env
        | none => fetchAndStore db name_value now env

/-- One entry of the `top_names` list (views.py lines 212-219). -/
structure TopNameEntry where
  name : String
  probability : ℚ
  count_of_requests : Int
deriving Repr, DecidableEq

inductive PopularResult where
  | success (country : String) (top_names : List TopNameEntry)
  | badRequest (msg : String)
  | notFound (msg : String)
deriving Repr, DecidableEq

/-- Insert a stat into a list sorted by descending probability, after every
element with an equal or larger probability. -/
def insertStat (s : StatRec) : List StatRec → List StatRec
  | [] => [s]
  | t :: ts =>
      if t.probability < s.probability then s :: t :: ts
      else t :: insertStat s ts

/-- `order_by("-probability")`: a stable descending sort of the stored rows
(ties keep the store order, as the spec allows). -/
def sortByProbDesc (l : List StatRec) : List StatRec :=
  l.foldl (fun acc s => insertStat s acc) []

/-- `PopularNamesView.get` (views.py lines 180-221): uppercase the code, 404
when no such `Country` row exists, order that country's stats by descending
probability, take the first five, 404 when there are none, and join each row
to its `Name` for the request counter. -/
def PopularNamesView_get (db : DB) (country_param : Option String) :
    PopularResult :=
  match country_param with
  | none => .badRequest "Query parameter country is required."
  | some country_code =>
      if country_code = "" then
        .badRequest "Query parameter country is required."
      else
        match db.countries.find? (fun c => c.code = pyUpper country_code) with
        | none =>
            .notFound ("Country with code " ++ country_code ++ " not found.")
        | some country =>
            let stats :=
              (sortByProbDesc
                (db.stats.filter (fun s => s.country_code = country.code))).take 5
            if stats.isEmpty then
              .notFound ("No data available for country " ++ country_code ++ ".")
            else
              .success country.code (stats.map (fun s =>
                let n := (db.names.find? (fun n => n.value = s.name_value)).getD
                  (⟨s.name_value, 0, 0⟩ : NameRec)
                ⟨n.value, pyRound4 s.probability, n.count_of_requests⟩))

/-- The declared storage-level schema of a `CharField`. -/
structure CharFieldSchema where
  max_length : Nat
  unique : Bool
deriving Repr, DecidableEq

/-- `value = models.CharField(max_length=100)` (models.py line 6): no
`unique=True` is declared for `Name.value`. -/
def Name_value_field : CharFieldSchema := ⟨100, false⟩

/-- `code = models.CharField(max_length=2, unique=True)` (models.py line 14). -/
def Country_code_field : CharFieldSchema := ⟨2, true⟩

/-- The store state left behind by a request, whether it finished normally or
with an escaping exception. -/
def dbAfter (r : Except DB (NamesResult × DB)) : DB :=
  match r with
  | .error d => d
  | .ok (_, d) => d

/-- Store states reachable from the empty store by any sequence of
`GET /names/` requests (`GET /popular-names/` performs no writes). -/
inductive Reachable : DB → Prop
  | empty : Reachable dbEmpty
  | step (db : DB) (np : Option String) (now : Int) (env : Env) :
      Reachable db → Reachable (dbAfter (NameStatsView_get db np now env))

/-- A fixed environment in which the prediction source has no candidates and
the metadata source is unreachable. -/
def envFail : Env := ⟨[], fun _ => ⟨false, none⟩⟩

lemma find?_touchName (l : List NameRec) (v : String) (now : Int) (r : NameRec)
    (h : l.find? (fun n => n.value = v) = some r) :
    (touchName v now l).find? (fun n => n.value = v) =
      some { r with count_of_requests := r.count_of_requests + 1,
                    last_accessed := now } := by
  induction l with
  | nil => simp at h
  | cons a l ih =>
      by_cases ha : a.value = v
      · rw [List.find?_cons_of_pos _ (by simpa using ha)] at h
        cases h
        rw [touchName, List.map_cons, if_pos ha,
          List.find?_cons_of_pos _ (by simpa using ha)]
      · rw [List.find?_cons_of_neg _ (by simpa using ha)] at h
        rw [touchName, List.map_cons, if_neg ha,
          List.find?_cons_of_neg _ (by simpa using ha)]
        exact ih h

/-- C1: a lookup of a name whose `Name` row was accessed within the last 24
hours is answered from the store for every environment (so no upstream
prediction call is made), the stored `NameCountryStat` rows for the name are
returned unchanged, and the row's request counter is incremented by exactly
one while its timestamp is refreshed. -/
theorem names_cache_hit (db : DB) (v : String) (now : Int) (env : Env)
    (r : NameRec)
    (h0 : v ≠ "")
    (h1 : db.names.find? (fun n => n.value = v) = some r)
    (h2 : r.last_accessed ≥ now - oneDay) :
    NameStatsView_get db (some v) now env =
      .ok (.success v
        ((db.stats.filter (fun s => s.name_value = v)).map (compactSerialize db)),
        { db with names := touchName v now db.names })
    ∧ ({ db with names := touchName v now db.names } : DB).stats = db.stats
    ∧ (touchName v now db.names).find? (fun n => n.value = v) =
        some { r with count_of_requests := r.count_of_requests + 1,
                      last_accessed := now } := by
  have hv : r.value = v := by simpa using List.find?_some h1
  refine ⟨?_, rfl, find?_touchName _ _ _ _ h1⟩
  simp [NameStatsView_get, h0, h1, if_pos h2, hv]
  intro hlt
  exfalso
  omega

def usCountry : CountryRec :=
  { code := "US", alpha3 := some "USA", name := some "United States",
    official_name := none, region := none, independent := none,
    capital := none, capital_lat := none, capital_lng := none,
    google_maps_url := none, openstreetmap_url := none, flag_png := none,
    flag_svg := none, flag_alt := none, coat_of_arms_png := none,
    coat_of_arms_svg := none }

def dbJohn : DB :=
  { names := [⟨"John", 2, 100⟩], countries := [usCountry],
    stats := [⟨"John", "US", 1⟩], borders := [] }

theorem names_cache_hit_witness :
    NameStatsView_get dbJohn (some "John") 150 envFail =
      .ok (.success "John"
        ((dbJohn.stats.filter (fun s => s.name_value = "John")).map
          (compactSerialize dbJohn)),
        { dbJohn with names := touchName "John" 150 dbJohn.names })
    ∧ ({ dbJohn with names := touchName "John" 150 dbJohn.names } : DB).stats =
        dbJohn.stats
    ∧ (touchName "John" 150 dbJohn.names).find? (fun n => n.value = "John") =
        some { value := "John", count_of_requests := 3, last_accessed := 150 } :=
  names_cache_hit dbJohn "John" 150 envFail ⟨"John", 2, 100⟩ (by decide)
    (by decide) (by decide)

/-- C4: for a name with no `Name` row, when the prediction source returns no
candidates the view answers 404 and leaves the store exactly as it was: no
`NameCountryStat` row is created and no counter is touched. -/
theorem names_unknown_no_candidates_404 (db : DB) (v : String) (now : Int)
    (env : Env)
    (h0 : v ≠ "")
    (h1 : db.names.find? (fun n => n.value = v) = none)
    (h2 : env.predictions = []) :
    NameStatsView_get db (some v) now env =
      .ok (.notFound ("No countries found for name " ++ v ++ "."), db) := by
  simp [NameStatsView_get, h0, h1, fetchAndStore, h2]

theorem names_unknown_no_candidates_404_witness :
    NameStatsView_get dbEmpty (some "Zelda") 0 envFail =
      .ok (.notFound ("No countries found for name " ++ "Zelda" ++ "."),
        dbEmpty) :=
  names_unknown_no_candidates_404 dbEmpty "Zelda" 0 envFail (by decide) rfl rfl

/-- C7: the declared storage schema backs `Country.code` with a unique
constraint but declares no unique constraint for `Name.value`; the latter is
guarded only by the check-then-act `get_or_create` in the view. -/
theorem name_value_unique_constraint_missing :
    Name_value_field.unique = false ∧ Country_code_field.unique = true :=
  ⟨rfl, rfl⟩

/-- C6 counterexample: an HTTP-ok metadata response whose JSON body is the
empty array is "no usable body", yet `fetch_country_data` raises
(`r.json()[0]` throws `IndexError`) instead of returning the empty metadata
set, so the claim as stated fails at this input. -/
theorem fetch_country_data_raises_on_empty_body :
    fetch_country_data ⟨true, some []⟩ = none := rfl

/-- C6 (amended): whenever the metadata call itself fails (`r.ok` false),
`fetch_country_data` returns the empty dictionary, whose neighbour list is
empty; the caller then creates the `Country` row with every optional field
null and carries on processing without an error. -/
theorem fetch_failure_degrades_to_empty (r : RestResponse) (h : r.ok = false) :
    fetch_country_data r = some emptyCountryData
    ∧ emptyCountryData.borders = []
    ∧ (∀ code, countryFromDefaults code emptyCountryData =
        { code := code, alpha3 := none, name := none, official_name := none,
          region := none, independent := none, capital := none,
          capital_lat := none, capital_lng := none, google_maps_url := none,
          openstreetmap_url := none, flag_png := none, flag_svg := none,
          flag_alt := none, coat_of_arms_png := none,
          coat_of_arms_svg := none })
    ∧ ∀ (rest : String → RestResponse) (nv : String) (db : DB)
        (p : Prediction),
        rest p.country_id = r →
        db.countries.find? (fun c => c.code = p.country_id) = none →
        processOne rest nv db p =
          .ok (update_or_create_stat
            { db with countries :=
                db.countries ++ [countryFromDefaults p.country_id emptyCountryData] }
            nv p.country_id p.probability) := by
  have hf : fetch_country_data r = some emptyCountryData := by
    simp [fetch_country_data, h]
  refine ⟨hf, rfl, fun code => rfl, ?_⟩
  intro rest nv db p hrest hfind
  simp [processOne, hrest, hf, get_or_create_country, hfind, linkBorders,
    emptyCountryData, countryFromDefaults]

theorem fetch_failure_degrades_to_empty_witness :
    fetch_country_data ⟨false, none⟩ = some emptyCountryData
    ∧ processOne (fun _ => ⟨false, none⟩) "John" dbEmpty ⟨"US", 1⟩ =
        .ok (update_or_create_stat
          { dbEmpty with countries :=
              dbEmpty.countries ++ [countryFromDefaults "US" emptyCountryData] }
          "John" "US" 1) := by
  have h := fetch_failure_degrades_to_empty ⟨false, none⟩ rfl
  exact ⟨h.1, h.2.2.2 (fun _ => ⟨false, none⟩) "John" dbEmpty ⟨"US", 1⟩ rfl rfl⟩

/-- `Country.objects.get(alpha3=border_code)` succeeds for this code. -/
def resolvable (db : DB) (bcode : String) : Bool :=
  (db.countries.find? (fun c => c.alpha3 = some bcode)).isSome

lemma linkBorders_rows (country : CountryRec) (codes : List String) (db : DB) :
    (linkBorders country codes db).names = db.names
    ∧ (linkBorders country codes db).countries = db.countries
    ∧ (linkBorders country codes db).stats = db.stats := by
  induction codes generalizing db with
  | nil => exact ⟨rfl, rfl, rfl⟩
  | cons bcode rest ih =>
      rw [linkBorders]
      cases hfind : db.countries.find? (fun c => c.alpha3 = some bcode) with
      | none => exact ih db
      | some neighbor =>
          dsimp only
          split
          · exact ih db
          · exact ih _

/-- C9: the border-graph loop ignores every neighbour code that matches no
stored country's alpha-3 identifier — running it is the same as running it on
only the resolvable codes — it never creates a placeholder `Country` row (nor
any `Name` or stat row), and the surrounding request cannot fail there: as
long as the metadata fetch produced a dictionary, `processOne` returns
normally. -/
theorem border_codes_without_country_skipped (country : CountryRec)
    (codes : List String) (db : DB) :
    (linkBorders country codes db).countries = db.countries
    ∧ linkBorders country codes db =
        linkBorders country (codes.filter (resolvable db)) db
    ∧ ∀ (rest : String → RestResponse) (nv : String) (p : Prediction),
        (fetch_country_data (rest p.country_id)).isSome →
        ∃ db', processOne rest nv db p = .ok db' := by
  refine ⟨(linkBorders_rows country codes db).2.1, ?_, ?_⟩
  · induction codes generalizing db with
    | nil => rfl
    | cons bcode rest ih =>
        by_cases hres : resolvable db bcode = true
        · rw [List.filter_cons_of_pos (by simpa using hres)]
          rw [resolvable, Option.isSome_iff_exists] at hres
          obtain ⟨neighbor, hfind⟩ := hres
          rw [linkBorders, linkBorders, hfind]
          dsimp only
          split
          · exact ih db
          · rw [ih]
            exact congrArg (fun l => linkBorders country l _)
              (List.filter_congr fun x _ => rfl)
        · rw [List.filter_cons_of_neg (by simpa using hres)]
          rw [resolvable, Option.isSome_iff_exists] at hres
          push_neg at hres
          cases hfind : db.countries.find? (fun c => c.alpha3 = some bcode) with
          | none => rw [linkBorders, hfind]; exact ih db
          | some neighbor => exact absurd hfind (hres neighbor)
  · intro rest nv p hsome
    rw [Option.isSome_iff_exists] at hsome
    obtain ⟨cd, hcd⟩ := hsome
    rw [processOne, hcd]
    exact ⟨_, rfl⟩

theorem border_codes_without_country_skipped_witness :
    (linkBorders usCountry ["CAN", "ZZZ"] dbJohn).countries = dbJohn.countries
    ∧ linkBorders usCountry ["CAN", "ZZZ"] dbJohn =
        linkBorders usCountry
          (["CAN", "ZZZ"].filter (resolvable dbJohn)) dbJohn
    ∧ ((fetch_country_data (envFail.rest "US")).isSome →
        ∃ db', processOne envFail.rest "John" dbJohn ⟨"US", 1⟩ = .ok db') := by
  have h := border_codes_without_country_skipped usCountry ["CAN", "ZZZ"] dbJohn
  exact ⟨h.1, h.2.1, fun hs => h.2.2 envFail.rest "John" ⟨"US", 1⟩ hs⟩

/-- The store an exception-or-result of the prediction loop leaves behind. -/
def exceptState : Except DB DB → DB
  | .error d => d
  | .ok d => d

lemma get_or_create_country_code (db : DB) (code : String) (d : CountryData) :
    (get_or_create_country db code d).1.code = code := by
  unfold get_or_create_country
  cases h : db.countries.find? (fun c => c.code = code) with
  | none => rfl
  | some c => simpa using List.find?_some h

lemma get_or_create_country_rows (db : DB) (code : String) (d : CountryData) :
    (get_or_create_country db code d).2.names = db.names
    ∧ (get_or_create_country db code d).2.stats = db.stats
    ∧ (get_or_create_country db code d).2.borders = db.borders := by
  unfold get_or_create_country
  cases h : db.countries.find? (fun c => c.code = code) with
  | none => exact ⟨rfl, rfl, rfl⟩
  | some c => exact ⟨rfl, rfl, rfl⟩

lemma mem_update_or_create_stat {s : StatRec} {db : DB} {nv code : String}
    {p : ℚ} (hs : s ∈ db.stats)
    (hkey : ¬(s.name_value = nv ∧ s.country_code = code)) :
    s ∈ (update_or_create_stat db nv code p).stats := by
  unfold update_or_create_stat
  split
  · exact List.mem_map.mpr ⟨s, hs, by rw [if_neg (by simpa using hkey)]⟩
  · exact List.mem_append_left _ hs

lemma processOne_mem_stats {s : StatRec} {db : DB}
    (rest : String → RestResponse) (nv : String) (p : Prediction)
    (hs : s ∈ db.stats) (hc : s.country_code ≠ p.country_id) :
    s ∈ (exceptState (processOne rest nv db p)).stats := by
  unfold processOne
  cases hf : fetch_country_data (rest p.country_id) with
  | none => exact hs
  | some cd =>
      dsimp only [exceptState]
      rw [(linkBorders_rows _ _ _).2.2]
      refine mem_update_or_create_stat ?_ ?_
      · rw [(get_or_create_country_rows db p.country_id cd).2.1]
        exact hs
      · rintro ⟨-, hceq⟩
        rw [get_or_create_country_code] at hceq
        exact hc hceq

lemma processAll_mem_stats {s : StatRec}
    (rest : String → RestResponse) (nv : String) (ps : List Prediction)
    (db : DB) (hs : s ∈ db.stats)
    (hc : s.country_code ∉ ps.map (fun p => p.country_id)) :
    s ∈ (exceptState (processAll rest nv ps db)).stats := by
  induction ps generalizing db with
  | nil => exact hs
  | cons p ptail ih =>
      rw [processAll]
      have hc1 : s.country_code ≠ p.country_id := by
        intro h; exact hc (by simp [h])
      have hmem := processOne_mem_stats rest nv p hs hc1
      cases hp : processOne rest nv db p with
      | error d => rw [hp] at hmem; exact hmem
      | ok db' =>
          rw [hp] at hmem
          exact ih db' hmem (fun h => hc (by simpa using Or.inr h))

lemma processAll_outcome (rest : String → RestResponse) (nv : String)
    (ps : List Prediction) (db2 : DB) (s : StatRec) (hs2 : s ∈ db2.stats)
    (hv : s.name_value = nv)
    (hc : s.country_code ∉ ps.map (fun p => p.country_id)) :
    (∀ d, processAll rest nv ps db2 = .error d → s ∈ d.stats)
    ∧ (∀ db3, processAll rest nv ps db2 = .ok db3 →
        s ∈ db3.stats ∧ compactSerialize db3 s ∈
          (db3.stats.filter (fun t => t.name_value = nv)).map
            (compactSerialize db3)) := by
  have hmem := processAll_mem_stats rest nv ps db2 hs2 hc
  constructor
  · intro d hd
    rw [hd] at hmem
    exact hmem
  · intro db3 hd
    rw [hd] at hmem
    exact ⟨hmem, List.mem_map_of_mem _ (List.mem_filter.mpr ⟨hmem, by simp [hv]⟩)⟩

lemma fetchAndStore_keeps_stat (db : DB) (v : String) (now : Int) (env : Env)
    (s : StatRec) (hs : s ∈ db.stats) (hv : s.name_value = v)
    (hc : s.country_code ∉ env.predictions.map (fun p => p.country_id)) :
    s ∈ (dbAfter (fetchAndStore db v now env)).stats
    ∧ ∀ (resp : NamesResult) (db' : DB) (nm : String)
        (cs : List CompactStat),
        fetchAndStore db v now env = .ok (resp, db') →
        resp = .success nm cs → compactSerialize db' s ∈ cs := by
  unfold fetchAndStore
  by_cases hp : env.predictions.isEmpty
  · rw [if_pos hp]
    refine ⟨hs, ?_⟩
    rintro resp db' nm cs h hresp
    injection h with h'
    injection h' with h1 h2
    rw [← h1] at hresp
    simp at hresp
  · rw [if_neg hp]
    cases hf : db.names.find? (fun n => n.value = v) with
    | some name_obj =>
        simp only
        have hout := processAll_outcome env.rest v env.predictions
          { db with names := touchName v now db.names } s hs hv hc
        cases hpa : processAll env.rest v env.predictions
            { db with names := touchName v now db.names } with
        | error d =>
            refine ⟨hout.1 d hpa, ?_⟩
            rintro resp db' nm cs h hresp
            exact Except.noConfusion h
        | ok db3 =>
            obtain ⟨hmem, hser⟩ := hout.2 db3 hpa
            refine ⟨hmem, ?_⟩
            rintro resp db' nm cs h hresp
            injection h with h'
            injection h' with h1 h2
            rw [← h1] at hresp
            rw [← h2]
            injection hresp with hnm hcs
            rw [← hcs]
            exact hser
    | none =>
        simp only
        have hs1 : s ∈ ({ db with names := db.names ++
            [(⟨v, 0, now⟩ : NameRec)] } : DB).stats := hs
        have hout := processAll_outcome env.rest v env.predictions
          { db with names := touchName v now (db.names ++
            [(⟨v, 0, now⟩ : NameRec)]) } s hs hv hc
        cases hpa : processAll env.rest v env.predictions
            { db with names := touchName v now (db.names ++
              [(⟨v, 0, now⟩ : NameRec)]) } with
        | error d =>
            refine ⟨hout.1 d hpa, ?_⟩
            rintro resp db' nm cs h hresp
            exact Except.noConfusion h
        | ok db3 =>
            obtain ⟨hmem, hser⟩ := hout.2 db3 hpa
            refine ⟨hmem, ?_⟩
            rintro resp db' nm cs h hresp
            injection h with h'
            injection h' with h1 h2
            rw [← h1] at hresp
            rw [← h2]
            injection hresp with hnm hcs
            rw [← hcs]
            exact hser

/-- C10: resolving a name never deletes a `NameCountryStat` row.  A row
stored for the name earlier whose country is absent from the current
candidate set survives the request unchanged — whether the request ends in a
cache hit, a 404, a success, or an escaping exception — and whenever the
request answers 200 the row is part of the serialized countries list. -/
theorem resolve_preserves_old_stats (db : DB) (v : String) (now : Int)
    (env : Env) (s : StatRec)
    (hs : s ∈ db.stats) (hv : s.name_value = v)
    (hc : s.country_code ∉ env.predictions.map (fun p => p.country_id)) :
    s ∈ (dbAfter (NameStatsView_get db (some v) now env)).stats
    ∧ ∀ (resp : NamesResult) (db' : DB) (nm : String)
        (cs : List CompactStat),
        NameStatsView_get db (some v) now env = .ok (resp, db') →
        resp = .success nm cs → compactSerialize db' s ∈ cs := by
  unfold NameStatsView_get
  dsimp only
  by_cases h0 : v = ""
  · rw [if_pos h0]
    refine ⟨hs, ?_⟩
    rintro resp db' nm cs h hresp
    injection h with h'
    injection h' with h1 h2
    rw [← h1] at hresp
    simp at hresp
  · rw [if_neg h0]
    cases hfind : db.names.find? (fun n => n.value = v) with
    | some name_obj =>
        simp only
        by_cases hfresh : name_obj.last_accessed ≥ now - oneDay
        · rw [if_pos hfresh]
          refine ⟨hs, ?_⟩
          rintro resp db' nm cs h hresp
          injection h with h'
          injection h' with h1 h2
          rw [← h1] at hresp
          rw [← h2]
          injection hresp with hnm hcs
          rw [← hcs]
          exact List.mem_map_of_mem _ (List.mem_filter.mpr ⟨hs, by simp [hv]⟩)
        · rw [if_neg hfresh]
          exact fetchAndStore_keeps_stat db v now env s hs hv hc
    | none =>
        simp only
        exact fetchAndStore_keeps_stat db v now env s hs hv hc

theorem resolve_preserves_old_stats_witness :
    (⟨"John", "US", 1⟩ : StatRec) ∈ dbJohn.stats
    ∧ (⟨"John", "US", 1⟩ : StatRec) ∈
        (dbAfter (NameStatsView_get dbJohn (some "John") 150
          ⟨[⟨"CA", 0⟩], fun _ => ⟨false, none⟩⟩)).stats := by
  have h := resolve_preserves_old_stats dbJohn "John" 150
    ⟨[⟨"CA", 0⟩], fun _ => ⟨false, none⟩⟩ ⟨"John", "US", 1⟩
    (by decide) rfl (by decide)
  exact ⟨by decide, h.1⟩

/-- Descending order of probabilities, as `order_by("-probability")` yields. -/
def probDescending (l : List StatRec) : Prop :=
  l.Pairwise (fun a b => b.probability ≤ a.probability)

lemma insertStat_perm (s : StatRec) (l : List StatRec) :
    List.Perm (insertStat s l) (s :: l) := by
  induction l with
  | nil => exact List.Perm.refl _
  | cons t ts ih =>
      rw [insertStat]
      split
      · exact List.Perm.refl _
      · exact (ih.cons t).trans (List.Perm.swap s t ts)

lemma sortByProbDesc_perm (l : List StatRec) :
    List.Perm (sortByProbDesc l) l := by
  have aux : ∀ (l acc : List StatRec),
      List.Perm (l.foldl (fun acc s => insertStat s acc) acc) (acc ++ l) := by
    intro l
    induction l with
    | nil => intro acc; simp
    | cons s ss ih =>
        intro acc
        rw [List.foldl_cons]
        refine (ih (insertStat s acc)).trans ?_
        refine (((insertStat_perm s acc).append_right ss).trans ?_)
        exact List.perm_middle.symm
  simpa using aux l []

lemma sortByProbDesc_length (l : List StatRec) :
    (sortByProbDesc l).length = l.length :=
  (sortByProbDesc_perm l).length_eq

lemma insertStat_sorted (s : StatRec) (l : List StatRec)
    (h : probDescending l) : probDescending (insertStat s l) := by
  induction l with
  | nil => simp [insertStat, probDescending]
  | cons t ts ih =>
      rw [insertStat]
      rw [probDescending, List.pairwise_cons] at h
      obtain ⟨ht, hts⟩ := h
      split
      · rename_i hlt
        rw [probDescending, List.pairwise_cons]
        refine ⟨?_, List.Pairwise.cons ht hts⟩
        intro x hx
        rcases List.mem_cons.mp hx with rfl | hx
        · exact le_of_lt hlt
        · exact (ht x hx).trans (le_of_lt hlt)
      · rename_i hnlt
        rw [probDescending, List.pairwise_cons]
        refine ⟨?_, ih hts⟩
        intro x hx
        have hx' := (insertStat_perm s ts).mem_iff.mp hx
        rcases List.mem_cons.mp hx' with rfl | hx'
        · exact le_of_not_lt hnlt
        · exact ht x hx'

lemma sortByProbDesc_sorted (l : List StatRec) :
    probDescending (sortByProbDesc l) := by
  have aux : ∀ (l acc : List StatRec), probDescending acc →
      probDescending (l.foldl (fun acc s => insertStat s acc) acc) := by
    intro l
    induction l with
    | nil => intro acc h; exact h
    | cons s ss ih =>
        intro acc h
        rw [List.foldl_cons]
        exact ih (insertStat s acc) (insertStat_sorted s acc h)
  exact aux l [] (List.Pairwise.nil)

/-- C8: with a non-empty country parameter, `topNames` answers 404 exactly
when the uppercased code matches no stored `Country`, or it matches one with
no `NameCountryStat` rows; both causes produce the same `notFound` outcome. -/
theorem popular_404_iff (db : DB) (q : String) (h0 : q ≠ "") :
    (∃ m, PopularNamesView_get db (some q) = .notFound m) ↔
      (db.countries.find? (fun c => c.code = pyUpper q) = none
        ∨ ∃ c, db.countries.find? (fun k => k.code = pyUpper q) = some c
            ∧ db.stats.filter (fun s => s.country_code = c.code) = []) := by
  unfold PopularNamesView_get
  dsimp only
  rw [if_neg h0]
  cases hfind : db.countries.find? (fun c => c.code = pyUpper q) with
  | none => simp
  | some c =>
      dsimp only
      by_cases hstats : db.stats.filter (fun s => s.country_code = c.code) = []
      · rw [hstats]
        simp only [sortByProbDesc, List.foldl_nil, List.take_nil,
          List.isEmpty_nil, if_true]
        exact iff_of_true ⟨_, rfl⟩ (Or.inr ⟨c, rfl, hstats⟩)
      · have hsrtne : sortByProbDesc
            (db.stats.filter (fun s => s.country_code = c.code)) ≠ [] := by
          intro h
          apply hstats
          have hl := sortByProbDesc_length
            (db.stats.filter (fun s => s.country_code = c.code))
          rw [h] at hl
          exact List.length_eq_zero.mp hl.symm
        have hne : ¬ (((sortByProbDesc
            (db.stats.filter (fun s => s.country_code = c.code))).take 5).isEmpty
              = true) := by
          simp [List.isEmpty_iff, List.take_eq_nil_iff, hsrtne]
        rw [if_neg hne]
        refine iff_of_false (by simp) ?_
        rintro (h | ⟨c', hc', hfil⟩)
        · exact Option.noConfusion h
        · injection hc' with hcc
          rw [← hcc] at hfil
          exact hstats hfil

theorem popular_404_iff_witness :
    (∃ m, PopularNamesView_get dbJohn (some "DE") = .notFound m) ↔
      (dbJohn.countries.find? (fun c => c.code = pyUpper "DE") = none
        ∨ ∃ c, dbJohn.countries.find? (fun k => k.code = pyUpper "DE") = some c
            ∧ dbJohn.stats.filter (fun s => s.country_code = c.code) = []) :=
  popular_404_iff dbJohn "DE" (by decide)

lemma round_mono_rat {x y : ℚ} (h : x ≤ y) : round x ≤ round y := by
  rw [round_eq, round_eq]
  exact Int.floor_le_floor (by linarith)

lemma fract_half_eq {s : ℚ} (h : Int.fract s = 1/2) : s = ⌊s⌋ + 1/2 := by
  have hs := Int.floor_add_fract s
  rw [h] at hs
  linarith

lemma round_of_fract_half {s : ℚ} (h : Int.fract s = 1/2) :
    round s = ⌊s⌋ + 1 := by
  have hs := fract_half_eq h
  rw [round_eq]
  nth_rewrite 1 [hs]
  have h1 : (⌊s⌋ : ℚ) + 1/2 + 1/2 = ((⌊s⌋ + 1 : ℤ) : ℚ) := by push_cast; ring
  rw [h1, Int.floor_intCast]

lemma rhe_of_fract_half {s : ℚ} (h : Int.fract s = 1/2) :
    roundHalfEven s = if Even ⌊s⌋ then ⌊s⌋ else ⌊s⌋ + 1 := by
  rw [roundHalfEven, if_pos h]
  have hs := fract_half_eq h
  by_cases he : Even ⌊s⌋
  · rw [if_pos he]
    obtain ⟨k, hk⟩ := he
    have h2 : s / 2 = (k : ℚ) + 1/4 := by rw [hs, hk]; push_cast; ring
    have h5 : ⌊(3/4 : ℚ)⌋ = 0 := by
      rw [Int.floor_eq_iff]
      norm_num
    have h3 : (k : ℚ) + 1/4 + 1/2 = 3/4 + (k : ℚ) := by ring
    rw [h2, round_eq, h3, Int.floor_add_int, h5, hk]
    ring
  · rw [if_neg he]
    obtain ⟨k, hk⟩ := Int.not_even_iff_odd.mp he
    have h2 : s / 2 = (k : ℚ) + 3/4 := by rw [hs, hk]; push_cast; ring
    have h5 : ⌊(5/4 : ℚ)⌋ = 1 := by
      rw [Int.floor_eq_iff]
      norm_num
    have h3 : (k : ℚ) + 3/4 + 1/2 = 5/4 + (k : ℚ) := by ring
    rw [h2, round_eq, h3, Int.floor_add_int, h5, hk]
    ring

lemma rhe_le_round (s : ℚ) : roundHalfEven s ≤ round s := by
  by_cases h : Int.fract s = 1/2
  · rw [rhe_of_fract_half h, round_of_fract_half h]
    split
    · omega
    · omega
  · exact le_of_eq (by rw [roundHalfEven, if_neg h])

lemma rhe_mono {s t : ℚ} (h : s ≤ t) :
    roundHalfEven s ≤ roundHalfEven t := by
  rcases eq_or_lt_of_le h with rfl | hlt
  · exact le_refl _
  by_cases ht : Int.fract t = 1/2 ∧ Even ⌊t⌋
  · obtain ⟨ht1, ht2⟩ := ht
    rw [rhe_of_fract_half ht1, if_pos ht2]
    refine (rhe_le_round s).trans ?_
    rw [round_eq]
    have hts := fract_half_eq ht1
    have hlt2 : ⌊s + 1/2⌋ < ⌊t⌋ + 1 := by
      apply Int.floor_lt.mpr
      push_cast
      rw [hts] at hlt
      linarith
    omega
  · have hrt : roundHalfEven t = round t := by
      by_cases hf : Int.fract t = 1/2
      · rw [rhe_of_fract_half hf, if_neg (fun he => ht ⟨hf, he⟩),
          round_of_fract_half hf]
      · rw [roundHalfEven, if_neg hf]
    rw [hrt]
    exact (rhe_le_round s).trans (round_mono_rat h)

lemma pyRound4_mono {q r : ℚ} (h : q ≤ r) : pyRound4 q ≤ pyRound4 r := by
  rw [pyRound4, pyRound4,
    div_le_div_iff_of_pos_right (by norm_num : (0:ℚ) < 10000)]
  exact_mod_cast rhe_mono (mul_le_mul_of_nonneg_right h (by norm_num))

/-- C5: for a non-empty country query whose uppercased form names a stored
country with at least one stat row, `topNames` answers 200 with exactly
`min N 5` entries, in descending probability order (also after the 4-decimal
rounding), and each entry carries a stored stat's name value, its rounded
probability, and the joined `Name` row's request counter. -/
theorem popular_top_names (db : DB) (q : String) (c : CountryRec)
    (h0 : q ≠ "")
    (h1 : db.countries.find? (fun k => k.code = pyUpper q) = some c)
    (h2 : db.stats.filter (fun s => s.country_code = c.code) ≠ [])
    (hwf : ∀ s ∈ db.stats,
      (db.names.find? (fun n => n.value = s.name_value)).isSome) :
    ∃ tn, PopularNamesView_get db (some q) = .success c.code tn
      ∧ tn.length =
          min (db.stats.filter (fun s => s.country_code = c.code)).length 5
      ∧ (tn.map (fun e => e.probability)).Pairwise (fun a b => b ≤ a)
      ∧ ∀ e ∈ tn, ∃ s ∈ db.stats, s.country_code = c.code
          ∧ ∃ n, db.names.find? (fun k => k.value = s.name_value) = some n
              ∧ e = ⟨s.name_value, pyRound4 s.probability,
                      n.count_of_requests⟩ := by
  unfold PopularNamesView_get
  dsimp only
  rw [if_neg h0, h1]
  dsimp only
  have hsrtne : sortByProbDesc
      (db.stats.filter (fun s => s.country_code = c.code)) ≠ [] := by
    intro hnil
    apply h2
    have hl := sortByProbDesc_length
      (db.stats.filter (fun s => s.country_code = c.code))
    rw [hnil] at hl
    exact List.length_eq_zero.mp hl.symm
  have hne : ¬ (((sortByProbDesc
      (db.stats.filter (fun s => s.country_code = c.code))).take 5).isEmpty
        = true) := by
    simp [List.isEmpty_iff, List.take_eq_nil_iff, hsrtne]
  rw [if_neg hne]
  refine ⟨_, rfl, ?_, ?_, ?_⟩
  · rw [List.length_map, List.length_take, sortByProbDesc_length,
      Nat.min_comm]
  · have htake := List.Pairwise.sublist
      (List.take_sublist 5 (sortByProbDesc
        (db.stats.filter (fun s => s.country_code = c.code))))
      (sortByProbDesc_sorted
        (db.stats.filter (fun s => s.country_code = c.code)))
    rw [List.map_map, List.pairwise_map]
    exact htake.imp (fun hab => pyRound4_mono hab)
  · intro e he
    rw [List.mem_map] at he
    obtain ⟨s, hsmem, hse⟩ := he
    have hs3 : s ∈ db.stats.filter (fun t => t.country_code = c.code) :=
      (sortByProbDesc_perm _).mem_iff.mp (List.mem_of_mem_take hsmem)
    have hs4 := List.mem_filter.mp hs3
    obtain ⟨n, hn⟩ := Option.isSome_iff_exists.mp (hwf s hs4.1)
    have hnv : n.value = s.name_value := by simpa using List.find?_some hn
    refine ⟨s, hs4.1, by simpa using hs4.2, n, hn, ?_⟩
    rw [← hse]
    simp only [hn, Option.getD_some]
    rw [hnv]

def dbTop : DB :=
  { names := [⟨"John", 50, 0⟩, ⟨"Mike", 30, 0⟩], countries := [usCountry],
    stats := [⟨"John", "US", 1⟩, ⟨"Mike", "US", 0⟩], borders := [] }

theorem popular_top_names_witness :
    ∃ tn, PopularNamesView_get dbTop (some "us") = .success usCountry.code tn
      ∧ tn.length = min
          (dbTop.stats.filter (fun s => s.country_code = usCountry.code)).length
          5
      ∧ (tn.map (fun e => e.probability)).Pairwise (fun a b => b ≤ a)
      ∧ ∀ e ∈ tn, ∃ s ∈ dbTop.stats, s.country_code = usCountry.code
          ∧ ∃ n, dbTop.names.find? (fun k => k.value = s.name_value) = some n
              ∧ e = ⟨s.name_value, pyRound4 s.probability,
                      n.count_of_requests⟩ :=
  popular_top_names dbTop "us" usCountry (by decide) (by decide) (by decide)
    (by decide)

/-- The `unique_together ("name", "country")` invariant of `NameCountryStat`,
stated on the row list: no two rows share the (name, country) key. -/
def statKeysUnique (l : List StatRec) : Prop :=
  l.Pairwise (fun a b =>
    ¬(a.name_value = b.name_value ∧ a.country_code = b.country_code))

lemma update_or_create_stat_keysUnique (db : DB) (nv code : String) (p : ℚ)
    (h : statKeysUnique db.stats) :
    statKeysUnique (update_or_create_stat db nv code p).stats := by
  unfold update_or_create_stat
  split
  · dsimp only
    rw [statKeysUnique, List.pairwise_map]
    have hkey : ∀ x : StatRec,
        (if x.name_value = nv && x.country_code = code then
          { x with probability := p } else x).name_value = x.name_value
        ∧ (if x.name_value = nv && x.country_code = code then
          { x with probability := p } else x).country_code
            = x.country_code := by
      intro x
      split
      · exact ⟨rfl, rfl⟩
      · exact ⟨rfl, rfl⟩
    refine h.imp ?_
    intro a b hab
    rw [(hkey a).1, (hkey a).2, (hkey b).1, (hkey b).2]
    exact hab
  · rename_i hany
    rw [statKeysUnique, List.pairwise_append]
    refine ⟨h, List.pairwise_singleton _ _, ?_⟩
    intro a ha b hb
    rw [List.mem_singleton] at hb
    subst hb
    rintro ⟨h1, h2⟩
    exact hany (List.any_eq_true.mpr ⟨a, ha, by simp [h1, h2]⟩)

lemma processOne_keysUnique (rest : String → RestResponse) (nv : String)
    (p : Prediction) (db : DB) (h : statKeysUnique db.stats) :
    statKeysUnique (exceptState (processOne rest nv db p)).stats := by
  unfold processOne
  cases hf : fetch_country_data (rest p.country_id) with
  | none => exact h
  | some cd =>
      dsimp only [exceptState]
      rw [(linkBorders_rows _ _ _).2.2]
      refine update_or_create_stat_keysUnique _ _ _ _ ?_
      rw [(get_or_create_country_rows db p.country_id cd).2.1]
      exact h

lemma processAll_keysUnique (rest : String → RestResponse) (nv : String)
    (ps : List Prediction) (db : DB) (h : statKeysUnique db.stats) :
    statKeysUnique (exceptState (processAll rest nv ps db)).stats := by
  induction ps generalizing db with
  | nil => exact h
  | cons p ptail ih =>
      rw [processAll]
      have h1 := processOne_keysUnique rest nv p db h
      cases hp : processOne rest nv db p with
      | error d => rw [hp] at h1; exact h1
      | ok db' => rw [hp] at h1; exact ih db' h1

lemma fetchAndStore_keysUnique (db : DB) (v : String) (now : Int) (env : Env)
    (h : statKeysUnique db.stats) :
    statKeysUnique (dbAfter (fetchAndStore db v now env)).stats := by
  unfold fetchAndStore
  by_cases hp : env.predictions.isEmpty = true
  · rw [if_pos hp]; exact h
  · rw [if_neg hp]
    cases hf : db.names.find? (fun n => n.value = v) with
    | some name_obj =>
        dsimp only
        have hall := processAll_keysUnique env.rest v env.predictions
          { db with names := touchName v now db.names } h
        cases hpa : processAll env.rest v env.predictions
            { db with names := touchName v now db.names } with
        | error d => rw [hpa] at hall; exact hall
        | ok db3 => rw [hpa] at hall; exact hall
    | none =>
        dsimp only
        have hall := processAll_keysUnique env.rest v env.predictions
          { db with names := touchName v now (db.names ++
            [(⟨v, 0, now⟩ : NameRec)]) } h
        cases hpa : processAll env.rest v env.predictions
            { db with names := touchName v now (db.names ++
              [(⟨v, 0, now⟩ : NameRec)]) } with
        | error d => rw [hpa] at hall; exact hall
        | ok db3 => rw [hpa] at hall; exact hall

lemma view_keysUnique (db : DB) (np : Option String) (now : Int) (env : Env)
    (h : statKeysUnique db.stats) :
    statKeysUnique (dbAfter (NameStatsView_get db np now env)).stats := by
  cases np with
  | none => exact h
  | some v =>
      unfold NameStatsView_get
      dsimp only
      by_cases h0 : v = ""
      · rw [if_pos h0]; exact h
      · rw [if_neg h0]
        cases hfind : db.names.find? (fun n => n.value = v) with
        | some name_obj =>
            dsimp only
            by_cases hfresh : name_obj.last_accessed ≥ now - oneDay
            · rw [if_pos hfresh]; exact h
            · rw [if_neg hfresh]; exact fetchAndStore_keysUnique db v now env h
        | none => exact fetchAndStore_keysUnique db v now env h

lemma find?_map_update (l : List StatRec) (nv code : String) (p : ℚ)
    (hex : l.any (fun s => s.name_value = nv && s.country_code = code)
      = true) :
    (l.map (fun s =>
        if s.name_value = nv && s.country_code = code then
          { s with probability := p } else s)).find?
      (fun s => s.name_value = nv && s.country_code = code)
      = some ⟨nv, code, p⟩ := by
  induction l with
  | nil => simp at hex
  | cons a l ih =>
      rw [List.map_cons]
      by_cases ha : (a.name_value = nv ∧ a.country_code = code)
      · rw [List.find?_cons_of_pos _
          (by rw [if_pos (by simp [ha.1, ha.2])]; simp [ha.1, ha.2])]
        rw [if_pos (by simp [ha.1, ha.2])]
        cases a
        simp_all
      · rw [if_neg (by simpa using ha)]
        rw [List.find?_cons_of_neg _ (by simpa using ha)]
        rw [List.any_cons] at hex
        rcases Bool.or_eq_true_iff.mp hex with h | h
        · exact absurd (by simpa using h) ha
        · exact ih h

lemma update_or_create_stat_self (db : DB) (nv code : String) (p : ℚ) :
    (update_or_create_stat db nv code p).stats.find?
      (fun s => s.name_value = nv && s.country_code = code)
      = some ⟨nv, code, p⟩ := by
  unfold update_or_create_stat
  split
  · exact find?_map_update db.stats nv code p (by assumption)
  · rename_i hany
    dsimp only
    rw [List.find?_append]
    have hnone : db.stats.find?
        (fun s => s.name_value = nv && s.country_code = code) = none := by
      rw [List.find?_eq_none]
      intro x hx hpx
      exact hany (List.any_eq_true.mpr ⟨x, hx, hpx⟩)
    rw [hnone]
    rw [List.find?_cons_of_pos _ (by simp)]
    rfl

lemma update_or_create_stat_other (db : DB) (nv' code : String) (p : ℚ)
    (nv cc : String) (hcc : cc ≠ code) :
    (update_or_create_stat db nv' code p).stats.find?
      (fun s => s.name_value = nv && s.country_code = cc)
      = db.stats.find?
        (fun s => s.name_value = nv && s.country_code = cc) := by
  unfold update_or_create_stat
  split
  · dsimp only
    have aux : ∀ l : List StatRec,
        (l.map (fun s =>
          if s.name_value = nv' && s.country_code = code then
            { s with probability := p } else s)).find?
          (fun s => s.name_value = nv && s.country_code = cc)
        = l.find? (fun s => s.name_value = nv && s.country_code = cc) := by
      intro l
      induction l with
      | nil => rfl
      | cons a l ih =>
          rw [List.map_cons]
          by_cases hpa : (a.name_value = nv ∧ a.country_code = cc)
          · have hfa : (if a.name_value = nv' && a.country_code = code then
                { a with probability := p } else a) = a := by
              rw [if_neg (by simp [hpa.2, hcc])]
            rw [hfa, List.find?_cons_of_pos _ (by simp [hpa.1, hpa.2]),
              List.find?_cons_of_pos _ (by simp [hpa.1, hpa.2])]
          · have hkey : ∀ x : StatRec,
                (if x.name_value = nv' && x.country_code = code then
                  { x with probability := p } else x).name_value = x.name_value
                ∧ (if x.name_value = nv' && x.country_code = code then
                  { x with probability := p } else x).country_code
                    = x.country_code := by
              intro x
              split
              · exact ⟨rfl, rfl⟩
              · exact ⟨rfl, rfl⟩
            rw [List.find?_cons_of_neg _
              (by rw [(hkey a).1, (hkey a).2]; simpa using hpa)]
            rw [List.find?_cons_of_neg _ (by simpa using hpa)]
            exact ih
    exact aux db.stats
  · dsimp only
    rw [List.find?_append]
    have hsingle : ([(⟨nv', code, p⟩ : StatRec)]).find?
        (fun s => s.name_value = nv && s.country_code = cc) = none := by
      rw [List.find?_eq_none]
      intro x hx
      rw [List.mem_singleton] at hx
      subst hx
      intro hpx
      simp only [Bool.and_eq_true, decide_eq_true_eq] at hpx
      exact hcc hpx.2.symm
    rw [hsingle, Option.or_none]

lemma processOne_stats_self (rest : String → RestResponse) (nv : String)
    (p : Prediction) (db db' : DB)
    (h : processOne rest nv db p = .ok db') :
    db'.stats.find?
      (fun s => s.name_value = nv && s.country_code = p.country_id)
      = some ⟨nv, p.country_id, p.probability⟩ := by
  unfold processOne at h
  cases hf : fetch_country_data (rest p.country_id) with
  | none => rw [hf] at h; exact Except.noConfusion h
  | some cd =>
      rw [hf] at h
      dsimp only at h
      injection h with h
      rw [← h, (linkBorders_rows _ _ _).2.2,
        get_or_create_country_code db p.country_id cd]
      exact update_or_create_stat_self _ nv _ p.probability

lemma processOne_stats_other (rest : String → RestResponse) (nv : String)
    (p : Prediction) (db db' : DB) (nv2 cc : String)
    (hcc : cc ≠ p.country_id)
    (h : processOne rest nv db p = .ok db') :
    db'.stats.find? (fun s => s.name_value = nv2 && s.country_code = cc)
      = db.stats.find?
        (fun s => s.name_value = nv2 && s.country_code = cc) := by
  unfold processOne at h
  cases hf : fetch_country_data (rest p.country_id) with
  | none => rw [hf] at h; exact Except.noConfusion h
  | some cd =>
      rw [hf] at h
      dsimp only at h
      injection h with h
      rw [← h, (linkBorders_rows _ _ _).2.2]
      rw [update_or_create_stat_other _ nv _ p.probability nv2 cc
        (by rw [get_or_create_country_code db p.country_id cd]; exact hcc)]
      rw [(get_or_create_country_rows db p.country_id cd).2.1]

lemma processAll_stats_untouched (rest : String → RestResponse) (nv : String)
    (ps : List Prediction) (db db' : DB) (nv2 cc : String)
    (hcc : cc ∉ ps.map (fun p => p.country_id))
    (h : processAll rest nv ps db = .ok db') :
    db'.stats.find? (fun s => s.name_value = nv2 && s.country_code = cc)
      = db.stats.find?
        (fun s => s.name_value = nv2 && s.country_code = cc) := by
  induction ps generalizing db with
  | nil =>
      rw [processAll] at h
      injection h with h
      rw [h]
  | cons p ptail ih =>
      rw [processAll] at h
      cases hp : processOne rest nv db p with
      | error d => rw [hp] at h; exact Except.noConfusion h
      | ok db1 =>
          rw [hp] at h
          have hcc1 : cc ≠ p.country_id := fun hq => hcc (by simp [hq])
          rw [ih db1 (fun hq => hcc (by simpa using Or.inr hq)) h]
          exact processOne_stats_other rest nv p db db1 nv2 cc hcc1 hp

lemma processAll_stats_mem (rest : String → RestResponse) (nv : String)
    (ps : List Prediction) (db db' : DB) (cid : String) (pr : ℚ)
    (hmem : (⟨cid, pr⟩ : Prediction) ∈ ps)
    (hnd : (ps.map (fun p => p.country_id)).Nodup)
    (h : processAll rest nv ps db = .ok db') :
    db'.stats.find? (fun s => s.name_value = nv && s.country_code = cid)
      = some ⟨nv, cid, pr⟩ := by
  induction ps generalizing db with
  | nil => simp at hmem
  | cons p ptail ih =>
      rw [processAll] at h
      cases hp : processOne rest nv db p with
      | error d => rw [hp] at h; exact Except.noConfusion h
      | ok db1 =>
          rw [hp] at h
          rcases List.mem_cons.mp hmem with heq | hmem'
          · subst heq
            have hnotin : cid ∉ ptail.map (fun p => p.country_id) := by
              rw [List.map_cons, List.nodup_cons] at hnd
              exact hnd.1
            rw [processAll_stats_untouched rest nv ptail db1 db' nv cid
              hnotin h]
            exact processOne_stats_self rest nv _ db db1 hp
          · exact ih db1 hmem' (by
              rw [List.map_cons, List.nodup_cons] at hnd
              exact hnd.2) h

/-- C2: in every reachable store state at most one `NameCountryStat` row
exists per (name, country) key; and when a missing-or-stale name is
re-resolved with a candidate list containing (cid, pr) (one candidate per
country, as the prediction source supplies) and the request returns normally,
the stored row for that pair afterwards carries probability exactly pr — the
value is overwritten, never accumulated, and never duplicated into a second
row. -/
theorem stat_rows_unique_and_overwritten :
    (∀ db : DB, Reachable db → statKeysUnique db.stats)
    ∧ ∀ (db : DB) (v : String) (now : Int) (env : Env) (resp : NamesResult)
        (db' : DB) (cid : String) (pr : ℚ),
        v ≠ "" →
        (∀ r, db.names.find? (fun n => n.value = v) = some r →
          r.last_accessed < now - oneDay) →
        (⟨cid, pr⟩ : Prediction) ∈ env.predictions →
        (env.predictions.map (fun p => p.country_id)).Nodup →
        NameStatsView_get db (some v) now env = .ok (resp, db') →
        db'.stats.find? (fun s => s.name_value = v && s.country_code = cid)
          = some ⟨v, cid, pr⟩ := by
  constructor
  · intro db h
    induction h with
    | empty => exact List.Pairwise.nil
    | step db np now env _ ih => exact view_keysUnique db np now env ih
  · intro db v now env resp db' cid pr h0 hstale hmem hnd hrun
    have hfs : fetchAndStore db v now env = .ok (resp, db') := by
      unfold NameStatsView_get at hrun
      dsimp only at hrun
      rw [if_neg h0] at hrun
      cases hfind : db.names.find? (fun n => n.value = v) with
      | some r =>
          rw [hfind] at hrun
          dsimp only at hrun
          rw [if_neg (by
            have := hstale r hfind
            omega)] at hrun
          exact hrun
      | none =>
          rw [hfind] at hrun
          exact hrun
    unfold fetchAndStore at hfs
    have hne : ¬ env.predictions.isEmpty = true := by
      intro hemp
      rw [List.isEmpty_iff] at hemp
      rw [hemp] at hmem
      simp at hmem
    rw [if_neg hne] at hfs
    cases hfind : db.names.find? (fun n => n.value = v) with
    | some r =>
        rw [hfind] at hfs
        dsimp only at hfs
        cases hpa : processAll env.rest v env.predictions
            { db with names := touchName v now db.names } with
        | error d => rw [hpa] at hfs; exact Except.noConfusion hfs
        | ok db3 =>
            rw [hpa] at hfs
            injection hfs with hfs
            have hd : db3 = db' := congrArg Prod.snd hfs
            rw [← hd]
            exact processAll_stats_mem env.rest v env.predictions _ db3
              cid pr hmem hnd hpa
    | none =>
        rw [hfind] at hfs
        dsimp only at hfs
        cases hpa : processAll env.rest v env.predictions
            { db with names := touchName v now (db.names ++
              [(⟨v, 0, now⟩ : NameRec)]) } with
        | error d => rw [hpa] at hfs; exact Except.noConfusion hfs
        | ok db3 =>
            rw [hpa] at hfs
            injection hfs with hfs
            have hd : db3 = db' := congrArg Prod.snd hfs
            rw [← hd]
            exact processAll_stats_mem env.rest v env.predictions _ db3
              cid pr hmem hnd hpa

def envJohn : Env := ⟨[⟨"US", 1⟩], fun _ => ⟨false, none⟩⟩

def dbAfterJohn : DB :=
  { names := [⟨"John", 1, 0⟩],
    countries := [countryFromDefaults "US" emptyCountryData],
    stats := [⟨"John", "US", 1⟩], borders := [] }

theorem stat_rows_unique_and_overwritten_witness :
    statKeysUnique dbEmpty.stats
    ∧ dbAfterJohn.stats.find?
        (fun s => s.name_value = "John" && s.country_code = "US")
        = some ⟨"John", "US", 1⟩ := by
  have h := stat_rows_unique_and_overwritten
  refine ⟨h.1 dbEmpty Reachable.empty, ?_⟩
  refine h.2 dbEmpty "John" 0 envJohn
    (.success "John" [⟨"US", none, pyRound4 1⟩]) dbAfterJohn "US" 1
    (by decide) (by intro r hr; simp [dbEmpty] at hr) (by decide)
    (by decide) ?_
  rfl

lemma pyStrLt_iff (a b : String) : pyStrLt a b = true ↔ a < b := by
  simp [pyStrLt]

/-- The canonical-order invariant of `CountryBorder` rows. -/
def bordersCanonical (l : List BorderRec) : Prop :=
  ∀ b ∈ l, b.from_code ≤ b.to_code

/-- The `unique_together ("from_country", "to_country")` invariant. -/
def bordersUnique (l : List BorderRec) : Prop :=
  l.Pairwise (fun a b =>
    ¬(a.from_code = b.from_code ∧ a.to_code = b.to_code))

lemma sortedPair_le (c n : CountryRec) :
    (sortedPair c n).1 ≤ (sortedPair c n).2 := by
  rw [sortedPair]
  split
  · rename_i h
    exact le_of_lt ((pyStrLt_iff _ _).mp h)
  · rename_i h
    exact le_of_not_lt (fun hlt => h ((pyStrLt_iff _ _).mpr hlt))

lemma sortedPair_no_swap (c n : CountryRec) :
    pyStrLt (sortedPair c n).2 (sortedPair c n).1 = false := by
  have hle := sortedPair_le c n
  rw [Bool.eq_false_iff]
  intro h
  exact absurd ((pyStrLt_iff _ _).mp h) (not_lt_of_le hle)

lemma CountryBorder_save_sorted (f t : String) (borders : List BorderRec)
    (h : pyStrLt t f = false) :
    CountryBorder_save f t borders = borders ++ [⟨f, t⟩] := by
  rw [CountryBorder_save, h]
  rfl

lemma linkBorders_invariant (country : CountryRec) (codes : List String)
    (db : DB) (hc : bordersCanonical db.borders)
    (hu : bordersUnique db.borders) :
    bordersCanonical (linkBorders country codes db).borders
    ∧ bordersUnique (linkBorders country codes db).borders := by
  induction codes generalizing db with
  | nil => exact ⟨hc, hu⟩
  | cons bcode rest ih =>
      rw [linkBorders]
      cases hfind : db.countries.find? (fun c => c.alpha3 = some bcode) with
      | none => exact ih db hc hu
      | some neighbor =>
          dsimp only
          split
          · exact ih db hc hu
          · rename_i hnex
            refine ih _ ?_ ?_
            · show bordersCanonical
                (CountryBorder_save (sortedPair country neighbor).1
                  (sortedPair country neighbor).2 db.borders)
              rw [CountryBorder_save_sorted _ _ _
                (sortedPair_no_swap country neighbor)]
              intro b hb
              rcases List.mem_append.mp hb with hb | hb
              · exact hc b hb
              · rw [List.mem_singleton] at hb
                subst hb
                exact sortedPair_le country neighbor
            · show bordersUnique
                (CountryBorder_save (sortedPair country neighbor).1
                  (sortedPair country neighbor).2 db.borders)
              rw [CountryBorder_save_sorted _ _ _
                (sortedPair_no_swap country neighbor)]
              rw [bordersUnique, List.pairwise_append]
              refine ⟨hu, List.pairwise_singleton _ _, ?_⟩
              intro a ha b hb
              rw [List.mem_singleton] at hb
              subst hb
              rintro ⟨h1, h2⟩
              exact hnex (List.any_eq_true.mpr ⟨a, ha, by simp [h1, h2]⟩)

lemma linkBorders_borders_mono (country : CountryRec) (codes : List String)
    (db : DB) (b : BorderRec) (hb : b ∈ db.borders) :
    b ∈ (linkBorders country codes db).borders := by
  induction codes generalizing db with
  | nil => exact hb
  | cons bcode rest ih =>
      rw [linkBorders]
      cases hfind : db.countries.find? (fun c => c.alpha3 = some bcode) with
      | none => exact ih db hb
      | some neighbor =>
          dsimp only
          split
          · exact ih db hb
          · refine ih _ ?_
            show b ∈ CountryBorder_save (sortedPair country neighbor).1
              (sortedPair country neighbor).2 db.borders
            rw [CountryBorder_save]
            split
            · exact List.mem_append_left _ hb
            · exact List.mem_append_left _ hb

lemma linkBorders_mem_pair (country neighbor : CountryRec)
    (codes : List String) :
    ∀ (db : DB) (bcode : String), bcode ∈ codes →
      db.countries.find? (fun c => c.alpha3 = some bcode) = some neighbor →
      (⟨(sortedPair country neighbor).1, (sortedPair country neighbor).2⟩ :
          BorderRec) ∈ (linkBorders country codes db).borders := by
  induction codes with
  | nil =>
      intro db bcode h
      simp at h
  | cons b0 rest ih =>
      intro db bcode hmem hfind
      rw [linkBorders]
      rcases List.mem_cons.mp hmem with rfl | hmem'
      · rw [hfind]
        dsimp only
        split
        · rename_i hex
          apply linkBorders_borders_mono
          obtain ⟨a, ha, hpa⟩ := List.any_eq_true.mp hex
          simp only [Bool.and_eq_true, decide_eq_true_eq] at hpa
          have ha2 : a = ⟨(sortedPair country neighbor).1,
              (sortedPair country neighbor).2⟩ := by
            cases a
            simp_all
          rw [← ha2]
          exact ha
        · apply linkBorders_borders_mono
          show _ ∈ CountryBorder_save (sortedPair country neighbor).1
            (sortedPair country neighbor).2 db.borders
          rw [CountryBorder_save_sorted _ _ _
            (sortedPair_no_swap country neighbor)]
          exact List.mem_append_right _ (List.mem_singleton.mpr rfl)
      · cases hfind0 : db.countries.find? (fun c => c.alpha3 = some b0) with
        | none => exact ih db bcode hmem' hfind
        | some n0 =>
            dsimp only
            split
            · exact ih db bcode hmem' hfind
            · exact ih _ bcode hmem' hfind

/-- The rows of the border table that relate the unordered pair (x, y), in
either orientation. -/
def pairRows (l : List BorderRec) (x y : String) : List BorderRec :=
  l.filter (fun b => (b.from_code = x && b.to_code = y)
    || (b.from_code = y && b.to_code = x))

lemma pairRows_comm (l : List BorderRec) (x y : String) :
    pairRows l x y = pairRows l y x :=
  List.filter_congr (fun b _ => Bool.or_comm _ _)

lemma pairRows_single (l : List BorderRec) (x y : String)
    (hc : bordersCanonical l) (hu : bordersUnique l) (hxy : x < y)
    (hmem : (⟨x, y⟩ : BorderRec) ∈ l) :
    pairRows l x y = [⟨x, y⟩] := by
  induction l with
  | nil => simp at hmem
  | cons a l ih =>
      have hc' : bordersCanonical l :=
        fun b hb => hc b (List.mem_cons_of_mem a hb)
      rw [bordersUnique, List.pairwise_cons] at hu
      by_cases hpa : a = (⟨x, y⟩ : BorderRec)
      · subst hpa
        rw [pairRows, List.filter_cons_of_pos (by simp)]
        simp only [List.cons.injEq, true_and]
        rw [List.filter_eq_nil_iff]
        intro b hb hpb
        simp only [Bool.or_eq_true, Bool.and_eq_true, decide_eq_true_eq]
          at hpb
        rcases hpb with ⟨hb1, hb2⟩ | ⟨hb1, hb2⟩
        · exact hu.1 b hb ⟨hb1.symm, hb2.symm⟩
        · have := hc b (List.mem_cons_of_mem _ hb)
          rw [hb1, hb2] at this
          exact absurd hxy (not_lt_of_le this)
      · have hmem' : (⟨x, y⟩ : BorderRec) ∈ l := by
          rcases List.mem_cons.mp hmem with h | h
          · exact absurd h.symm hpa
          · exact h
        rw [pairRows, List.filter_cons_of_neg ?hneg]
        · exact ih hc' hu.2 hmem'
        case hneg =>
          intro hp
          simp only [Bool.or_eq_true, Bool.and_eq_true, decide_eq_true_eq]
            at hp
          rcases hp with ⟨h1, h2⟩ | ⟨h1, h2⟩
          · refine hpa ?_
            cases a
            simp_all
          · have := hc a (List.mem_cons_self a l)
            rw [h1, h2] at this
            exact absurd hxy (not_lt_of_le this)

lemma update_or_create_stat_borders (db : DB) (nv code : String) (p : ℚ) :
    (update_or_create_stat db nv code p).borders = db.borders := by
  unfold update_or_create_stat
  split
  · rfl
  · rfl

lemma processOne_bordersInv (rest : String → RestResponse) (nv : String)
    (p : Prediction) (db : DB) (hc : bordersCanonical db.borders)
    (hu : bordersUnique db.borders) :
    bordersCanonical (exceptState (processOne rest nv db p)).borders
    ∧ bordersUnique (exceptState (processOne rest nv db p)).borders := by
  unfold processOne
  cases hf : fetch_country_data (rest p.country_id) with
  | none => exact ⟨hc, hu⟩
  | some cd =>
      dsimp only [exceptState]
      refine linkBorders_invariant _ _ _ ?_ ?_
      · rw [update_or_create_stat_borders,
          (get_or_create_country_rows db p.country_id cd).2.2]
        exact hc
      · rw [update_or_create_stat_borders,
          (get_or_create_country_rows db p.country_id cd).2.2]
        exact hu

lemma processAll_bordersInv (rest : String → RestResponse) (nv : String)
    (ps : List Prediction) (db : DB) (hc : bordersCanonical db.borders)
    (hu : bordersUnique db.borders) :
    bordersCanonical (exceptState (processAll rest nv ps db)).borders
    ∧ bordersUnique (exceptState (processAll rest nv ps db)).borders := by
  induction ps generalizing db with
  | nil => exact ⟨hc, hu⟩
  | cons p ptail ih =>
      rw [processAll]
      have h1 := processOne_bordersInv rest nv p db hc hu
      cases hp : processOne rest nv db p with
      | error d => rw [hp] at h1; exact h1
      | ok db' =>
          rw [hp] at h1
          exact ih db' h1.1 h1.2

lemma fetchAndStore_bordersInv (db : DB) (v : String) (now : Int) (env : Env)
    (hc : bordersCanonical db.borders) (hu : bordersUnique db.borders) :
    bordersCanonical (dbAfter (fetchAndStore db v now env)).borders
    ∧ bordersUnique (dbAfter (fetchAndStore db v now env)).borders := by
  unfold fetchAndStore
  by_cases hp : env.predictions.isEmpty = true
  · rw [if_pos hp]; exact ⟨hc, hu⟩
  · rw [if_neg hp]
    cases hf : db.names.find? (fun n => n.value = v) with
    | some name_obj =>
        dsimp only
        have hall := processAll_bordersInv env.rest v env.predictions
          { db with names := touchName v now db.names } hc hu
        cases hpa : processAll env.rest v env.predictions
            { db with names := touchName v now db.names } with
        | error d => rw [hpa] at hall; exact hall
        | ok db3 => rw [hpa] at hall; exact hall
    | none =>
        dsimp only
        have hall := processAll_bordersInv env.rest v env.predictions
          { db with names := touchName v now (db.names ++
            [(⟨v, 0, now⟩ : NameRec)]) } hc hu
        cases hpa : processAll env.rest v env.predictions
            { db with names := touchName v now (db.names ++
              [(⟨v, 0, now⟩ : NameRec)]) } with
        | error d => rw [hpa] at hall; exact hall
        | ok db3 => rw [hpa] at hall; exact hall

lemma view_bordersInv (db : DB) (np : Option String) (now : Int) (env : Env)
    (hc : bordersCanonical db.borders) (hu : bordersUnique db.borders) :
    bordersCanonical (dbAfter (NameStatsView_get db np now env)).borders
    ∧ bordersUnique (dbAfter (NameStatsView_get db np now env)).borders := by
  cases np with
  | none => exact ⟨hc, hu⟩
  | some v =>
      unfold NameStatsView_get
      dsimp only
      by_cases h0 : v = ""
      · rw [if_pos h0]; exact ⟨hc, hu⟩
      · rw [if_neg h0]
        cases hfind : db.names.find? (fun n => n.value = v) with
        | some name_obj =>
            dsimp only
            by_cases hfresh : name_obj.last_accessed ≥ now - oneDay
            · rw [if_pos hfresh]; exact ⟨hc, hu⟩
            · rw [if_neg hfresh]
              exact fetchAndStore_bordersInv db v now env hc hu
        | none => exact fetchAndStore_bordersInv db v now env hc hu

/-- C3: in every reachable store state each `CountryBorder` row is stored
with `from_country.code` lexicographically at most `to_country.code` and no
unordered pair occurs twice; and whenever the border loop runs for a country
whose neighbour list resolves some stored neighbour (from either direction of
discovery), exactly one row exists afterwards for the unordered pair, with
the lexicographically smaller code as `from_country`. -/
theorem borders_canonical_unique :
    (∀ db : DB, Reachable db →
      bordersCanonical db.borders ∧ bordersUnique db.borders)
    ∧ ∀ (country neighbor : CountryRec) (codes : List String) (db : DB)
        (bcode : String),
        bordersCanonical db.borders → bordersUnique db.borders →
        bcode ∈ codes →
        db.countries.find? (fun c => c.alpha3 = some bcode) = some neighbor →
        country.code ≠ neighbor.code →
        pairRows (linkBorders country codes db).borders country.code
            neighbor.code
          = [⟨min country.code neighbor.code,
              max country.code neighbor.code⟩] := by
  constructor
  · intro db h
    induction h with
    | empty => exact ⟨fun b hb => absurd hb (List.not_mem_nil b),
        List.Pairwise.nil⟩
    | step db np now env _ ih => exact view_bordersInv db np now env ih.1 ih.2
  · intro country neighbor codes db bcode hc hu hmem hfind hne
    have hinv := linkBorders_invariant country codes db hc hu
    have hpair := linkBorders_mem_pair country neighbor codes db bcode
      hmem hfind
    have hsp : sortedPair country neighbor =
        (min country.code neighbor.code, max country.code neighbor.code) := by
      rw [sortedPair]
      by_cases h : pyStrLt neighbor.code country.code = true
      · rw [if_pos h]
        have hlt := (pyStrLt_iff _ _).mp h
        rw [min_eq_right (le_of_lt hlt), max_eq_left (le_of_lt hlt)]
      · rw [if_neg h]
        have hle : country.code ≤ neighbor.code :=
          le_of_not_lt (fun hlt => h ((pyStrLt_iff _ _).mpr hlt))
        rw [min_eq_left hle, max_eq_right hle]
    rw [hsp] at hpair
    by_cases hcn : country.code ≤ neighbor.code
    · have hmin := min_eq_left hcn
      have hmax := max_eq_right hcn
      rw [hmin, hmax] at hpair ⊢
      exact pairRows_single _ _ _ hinv.1 hinv.2
        (lt_of_le_of_ne hcn hne) hpair
    · have hle : neighbor.code ≤ country.code := le_of_not_le hcn
      have hmin := min_eq_right hle
      have hmax := max_eq_left hle
      rw [hmin, hmax] at hpair ⊢
      rw [pairRows_comm]
      exact pairRows_single _ _ _ hinv.1 hinv.2
        (lt_of_le_of_ne hle (fun h => hne h.symm)) hpair

def caCountry : CountryRec :=
  { code := "CA", alpha3 := some "CAN", name := some "Canada",
    official_name := none, region := none, independent := none,
    capital := none, capital_lat := none, capital_lng := none,
    google_maps_url := none, openstreetmap_url := none, flag_png := none,
    flag_svg := none, flag_alt := none, coat_of_arms_png := none,
    coat_of_arms_svg := none }

def dbUSCA : DB :=
  { names := [], countries := [usCountry, caCountry], stats := [],
    borders := [] }

theorem borders_canonical_unique_witness :
    (bordersCanonical dbEmpty.borders ∧ bordersUnique dbEmpty.borders)
    ∧ pairRows (linkBorders usCountry ["CAN"] dbUSCA).borders
        usCountry.code caCountry.code
        = [⟨min usCountry.code caCountry.code,
            max usCountry.code caCountry.code⟩] := by
  have h := borders_canonical_unique
  refine ⟨h.1 dbEmpty Reachable.empty, ?_⟩
  exact h.2 usCountry caCountry ["CAN"] dbUSCA "CAN"
    (by intro b hb; simp [dbUSCA] at hb)
    (by simp [dbUSCA, bordersUnique])
    (by decide) (by decide) (by decide)
